import Mathlib

/-!
Verification development for the memebrain repository.

The file-monitor subsystem (debouncer, dedup tracker, bounded queue,
worker pool, pipeline executor) is documented in docs/FILE_MONITOR.md;
its Python implementation is not part of the source tree we were given,
so those components are modelled from the documentation and the design
specification.  The HTTP upload handler, the tRPC search procedure and
ImageService.generateCaption are embedded directly from the TypeScript
sources (server index.ts, routers/meme.ts, imageService.ts).
-/

namespace MemeBrain

/-! ### Configuration defaults (docs/FILE_MONITOR.md, Configuration section) -/

/-- Default `MAX_QUEUE_SIZE`: maximum number of files that can be queued. -/
def defaultMaxQueueSize : Nat := 100

/-- Default `MAX_WORKER_THREADS`: number of worker threads for processing. -/
def defaultMaxWorkerThreads : Nat := 4

/-- Debounce delay in milliseconds: "1-second delay after file creation". -/
def debounceDelayMs : Nat := 1000

/-! ### Admission filter: fast extension checking
Supported extensions per the documentation:
`.jpg`, `.jpeg`, `.png`, `.gif`, `.bmp`, `.webp` (case-insensitive). -/

def supportedExtensions : List String :=
  [".jpg", ".jpeg", ".png", ".gif", ".bmp", ".webp"]

/-- Extension allow-list check, computed on the lower-cased path without
opening the file. -/
def hasImageExt (p : String) : Bool :=
  supportedExtensions.any (fun e => p.toLower.endsWith e)

/-! ### File monitor state machine

Modelled from the spec: the Python `file_monitor.py` (ImageFileHandler,
bounded queue, worker dispatch) is not in the source tree; the model
follows docs/FILE_MONITOR.md.  Event flow there is
`File Created → Extension Check → Queue Size Check → Debounce →
Validation → Add to Processing Queue → ... → Qdrant Indexing → Complete`,
and the bounded-queue tracking "Counts both pending (debouncing) and
processing files", with overflow dropping the file and incrementing the
dropped counter.  The model is generic in the path type and in the
validity predicate (instantiated with `hasImageExt` on strings for the
real extension filter). -/

structure MonState (Path : Type) where
  debouncing : List Path
  queued : List Path
  processing : List Path
  indexed : List Path
  admitted : Nat
  dropped : Nat
  skipped : Nat
  completed : Nat
deriving Repr, DecidableEq

/-- Events driving the monitor: a file-creation notification, a debounce
timer firing ("stable"), a worker picking a task up, a worker finishing. -/
inductive Ev (Path : Type) where
  | create (p : Path)
  | stable (p : Path)
  | pickup (p : Path)
  | complete (p : Path)
deriving Repr, DecidableEq

variable {Path : Type} [DecidableEq Path]

/-- All paths currently tracked by the monitor: debouncing, queued, or
being processed by a worker. -/
def MonState.trackedPaths (s : MonState Path) : List Path :=
  s.debouncing ++ s.queued ++ s.processing

/-- The count used by the queue-size check: per the documentation the
bound "Counts both pending (debouncing) and processing files". -/
def MonState.trackedCount (s : MonState Path) : Nat :=
  s.debouncing.length + s.queued.length + s.processing.length

/-- One transition of the monitor.  `valid` is the admission filter
(extension allow-list), `C` the queue capacity (`MAX_QUEUE_SIZE`). -/
def step (valid : Path → Bool) (C : Nat) (s : MonState Path) :
    Ev Path → MonState Path
  | Ev.create p =>
      if valid p = false then s
      else if p ∈ s.trackedPaths then s
      else if C ≤ s.trackedCount then { s with dropped := s.dropped + 1 }
      else { s with debouncing := p :: s.debouncing }
  | Ev.stable p =>
      if p ∈ s.debouncing then
        if p ∈ s.indexed then
          { s with debouncing := s.debouncing.erase p,
                   skipped := s.skipped + 1 }
        else
          { s with debouncing := s.debouncing.erase p,
                   queued := p :: s.queued,
                   admitted := s.admitted + 1 }
      else s
  | Ev.pickup p =>
      if p ∈ s.queued then
        { s with queued := s.queued.erase p,
                 processing := p :: s.processing }
      else s
  | Ev.complete p =>
      if p ∈ s.processing then
        { s with processing := s.processing.erase p,
                 indexed := p :: s.indexed,
                 completed := s.completed + 1 }
      else s

/-- Run the monitor over a trace of events. -/
def run (valid : Path → Bool) (C : Nat) (s : MonState Path)
    (tr : List (Ev Path)) : MonState Path :=
  tr.foldl (step valid C) s

/-- Initial state: nothing tracked, counters at zero, external index
holding `idx`. -/
def mkInit (idx : List Path) : MonState Path :=
  ⟨[], [], [], idx, 0, 0, 0, 0⟩

/-- Paths of the creation events of a trace. -/
def createPaths : List (Ev Path) → List Path
  | [] => []
  | Ev.create p :: tr => p :: createPaths tr
  | Ev.stable _ :: tr => createPaths tr
  | Ev.pickup _ :: tr => createPaths tr
  | Ev.complete _ :: tr => createPaths tr

lemma run_nil (valid : Path → Bool) (C : Nat) (s : MonState Path) :
    run valid C s [] = s := rfl

lemma run_cons (valid : Path → Bool) (C : Nat) (s : MonState Path)
    (e : Ev Path) (tr : List (Ev Path)) :
    run valid C s (e :: tr) = run valid C (step valid C s e) tr := rfl

/-- One step never pushes the tracked count past the capacity. -/
lemma trackedCount_step_le (valid : Path → Bool) (C : Nat)
    (s : MonState Path) (e : Ev Path) (h : s.trackedCount ≤ C) :
    (step valid C s e).trackedCount ≤ C := by
  cases e with
  | create p =>
      simp only [step]
      split
      · exact h
      split
      · exact h
      split
      · exact h
      · rename_i hfull
        simp only [MonState.trackedCount, List.length_cons] at *
        omega
  | stable p =>
      simp only [step]
      split
      · rename_i hp
        have hlen := List.length_erase_of_mem hp
        have hpos := List.length_pos_of_mem hp
        split
        · simp only [MonState.trackedCount] at *
          omega
        · simp only [MonState.trackedCount, List.length_cons] at *
          omega
      · exact h
  | pickup p =>
      simp only [step]
      split
      · rename_i hp
        have hlen := List.length_erase_of_mem hp
        have hpos := List.length_pos_of_mem hp
        simp only [MonState.trackedCount, List.length_cons] at *
        omega
      · exact h
  | complete p =>
      simp only [step]
      split
      · rename_i hp
        have hlen := List.length_erase_of_mem hp
        simp only [MonState.trackedCount] at *
        omega
      · exact h

/-- Along any trace, the tracked count stays at or below the capacity. -/
lemma trackedCount_run_le (valid : Path → Bool) (C : Nat)
    (s : MonState Path) (tr : List (Ev Path)) (h : s.trackedCount ≤ C) :
    (run valid C s tr).trackedCount ≤ C := by
  induction tr generalizing s with
  | nil => exact h
  | cons e tr ih =>
      rw [run_cons]
      exact ih _ (trackedCount_step_le valid C s e h)

/-- A step only ever starts tracking the path of a creation event. -/
lemma trackedPaths_step_subset (valid : Path → Bool) (C : Nat)
    (s : MonState Path) (e : Ev Path) :
    (step valid C s e).trackedPaths ⊆ createPaths [e] ++ s.trackedPaths := by
  cases e with
  | create p =>
      simp only [step]
      split
      · exact fun x hx => List.mem_append_right _ hx
      split
      · exact fun x hx => List.mem_append_right _ hx
      split
      · exact fun x hx => List.mem_append_right _ hx
      · intro x hx
        simp only [MonState.trackedPaths, createPaths, List.mem_append,
          List.mem_cons, List.mem_singleton] at hx ⊢
        tauto
  | stable p =>
      simp only [step]
      split
      · rename_i hp
        split
        · intro x hx
          simp only [MonState.trackedPaths, createPaths, List.nil_append,
            List.mem_append] at hx ⊢
          rcases hx with (hx | hx) | hx
          · exact Or.inl (Or.inl (List.mem_of_mem_erase hx))
          · exact Or.inl (Or.inr hx)
          · exact Or.inr hx
        · intro x hx
          simp only [MonState.trackedPaths, createPaths, List.nil_append,
            List.mem_append, List.mem_cons] at hx ⊢
          rcases hx with (hx | (hx | hx)) | hx
          · exact Or.inl (Or.inl (List.mem_of_mem_erase hx))
          · exact Or.inl (Or.inl (hx ▸ hp))
          · exact Or.inl (Or.inr hx)
          · exact Or.inr hx
      · exact fun x hx => List.mem_append_right _ hx
  | pickup p =>
      simp only [step]
      split
      · rename_i hp
        intro x hx
        simp only [MonState.trackedPaths, createPaths, List.nil_append,
          List.mem_append, List.mem_cons] at hx ⊢
        rcases hx with (hx | hx) | (hx | hx)
        · exact Or.inl (Or.inl hx)
        · exact Or.inl (Or.inr (List.mem_of_mem_erase hx))
        · exact Or.inl (Or.inr (hx ▸ hp))
        · exact Or.inr hx
      · exact fun x hx => List.mem_append_right _ hx
  | complete p =>
      simp only [step]
      split
      · intro x hx
        simp only [MonState.trackedPaths, createPaths, List.nil_append,
          List.mem_append] at hx ⊢
        rcases hx with (hx | hx) | hx
        · exact Or.inl (Or.inl hx)
        · exact Or.inl (Or.inr hx)
        · exact Or.inr (List.mem_of_mem_erase hx)
      · exact fun x hx => List.mem_append_right _ hx

/-- Running a trace only ever starts tracking created paths. -/
lemma trackedPaths_run_subset (valid : Path → Bool) (C : Nat)
    (s : MonState Path) (tr : List (Ev Path)) :
    (run valid C s tr).trackedPaths ⊆ createPaths tr ++ s.trackedPaths := by
  induction tr generalizing s with
  | nil => exact fun x hx => List.mem_append_right _ hx
  | cons e tr ih =>
      rw [run_cons]
      intro x hx
      have h1 := ih (step valid C s e) hx
      simp only [List.mem_append] at h1 ⊢
      rcases h1 with h1 | h1
      · cases e <;>
          simp only [createPaths, List.mem_cons] at h1 ⊢ <;> tauto
      · have h2 := trackedPaths_step_subset valid C s e h1
        simp only [List.mem_append] at h2
        cases e <;>
          simp only [createPaths, List.mem_cons, List.not_mem_nil,
            List.mem_singleton] at h2 ⊢ <;> tauto

/-- Dedup invariant: no path is tracked twice, the external index has no
duplicate entries, and an indexed path is never queued or processing. -/
def Inv (s : MonState Path) : Prop :=
  s.trackedPaths.Nodup ∧ s.indexed.Nodup ∧
    ∀ p ∈ s.indexed, p ∉ s.queued ∧ p ∉ s.processing

lemma inv_step (valid : Path → Bool) (C : Nat) (s : MonState Path)
    (e : Ev Path) (h : Inv s) : Inv (step valid C s e) := by
  obtain ⟨hnd, hidx, hdisj⟩ := h
  cases e with
  | create p =>
      simp only [step]
      split
      · exact ⟨hnd, hidx, hdisj⟩
      split
      · exact ⟨hnd, hidx, hdisj⟩
      split
      · exact ⟨hnd, hidx, hdisj⟩
      · rename_i hfresh hfull
        refine ⟨?_, hidx, hdisj⟩
        simp only [MonState.trackedPaths] at hnd ⊢
        simp only [List.cons_append, List.nodup_cons]
        exact ⟨hfresh, hnd⟩
  | stable p =>
      simp only [step]
      split
      · rename_i hp
        have hperm : List.Perm s.debouncing (p :: s.debouncing.erase p) :=
          List.perm_cons_erase hp
        split
        · rename_i hpidx
          refine ⟨?_, hidx, hdisj⟩
          simp only [MonState.trackedPaths] at hnd ⊢
          exact List.Nodup.sublist
            (List.Sublist.append_right
              (List.Sublist.append_right (List.erase_sublist p _) s.queued)
              s.processing) hnd
        · rename_i hpidx
          have h5 : List.Perm (s.debouncing ++ s.queued ++ s.processing)
              (p :: (s.debouncing.erase p ++ s.queued ++ s.processing)) :=
            (hperm.append_right s.queued).append_right s.processing
          have h6 := h5.nodup hnd
          refine ⟨?_, hidx, ?_⟩
          · have h7 : List.Perm
                (s.debouncing.erase p ++ (p :: s.queued) ++ s.processing)
                (p :: (s.debouncing.erase p ++ s.queued ++ s.processing)) :=
              List.Perm.append_right s.processing List.perm_middle
            exact h7.symm.nodup h6
          · intro q hq
            rcases hdisj q hq with ⟨hq1, hq2⟩
            refine ⟨?_, hq2⟩
            simp only [List.mem_cons]
            rintro (rfl | hqq)
            · exact hpidx hq
            · exact hq1 hqq
      · exact ⟨hnd, hidx, hdisj⟩
  | pickup p =>
      simp only [step]
      split
      · rename_i hp
        have hperm : List.Perm s.queued (p :: s.queued.erase p) :=
          List.perm_cons_erase hp
        refine ⟨?_, hidx, ?_⟩
        · have h5 : List.Perm (s.debouncing ++ s.queued ++ s.processing)
              ((s.debouncing ++ (p :: s.queued.erase p)) ++ s.processing) :=
            (List.Perm.append_left s.debouncing hperm).append_right
              s.processing
          have h6 := h5.nodup hnd
          have hL : List.Perm
              ((s.debouncing ++ s.queued.erase p) ++ (p :: s.processing))
              (p :: ((s.debouncing ++ s.queued.erase p) ++ s.processing)) :=
            List.perm_middle
          have hR : List.Perm
              ((s.debouncing ++ (p :: s.queued.erase p)) ++ s.processing)
              (p :: ((s.debouncing ++ s.queued.erase p) ++ s.processing)) :=
            List.Perm.append_right s.processing List.perm_middle
          exact (hL.trans hR.symm).symm.nodup h6
        · intro q hq
          rcases hdisj q hq with ⟨hq1, hq2⟩
          constructor
          · intro hqq
            exact hq1 (List.mem_of_mem_erase hqq)
          · simp only [List.mem_cons]
            rintro (rfl | hqq)
            · exact hq1 hp
            · exact hq2 hqq
      · exact ⟨hnd, hidx, hdisj⟩
  | complete p =>
      simp only [step]
      split
      · rename_i hp
        have hnd' : (s.debouncing ++ s.queued).Nodup ∧ s.processing.Nodup ∧
            List.Disjoint (s.debouncing ++ s.queued) s.processing := by
          simpa only [MonState.trackedPaths, List.nodup_append] using hnd
        have hpq : p ∉ s.queued := fun hq =>
          hnd'.2.2 (List.mem_append_right _ hq) hp
        have hpidx : p ∉ s.indexed := fun hq => (hdisj p hq).2 hp
        have hpne : p ∉ s.processing.erase p := by
          have h2 := (List.perm_cons_erase hp).nodup hnd'.2.1
          simp only [List.nodup_cons] at h2
          exact h2.1
        refine ⟨?_, ?_, ?_⟩
        · simp only [MonState.trackedPaths] at hnd ⊢
          exact List.Nodup.sublist
            (List.Sublist.append_left (List.erase_sublist p _) _) hnd
        · simp only [List.nodup_cons]
          exact ⟨hpidx, hidx⟩
        · intro q hq
          simp only [List.mem_cons] at hq
          rcases hq with rfl | hq
          · exact ⟨hpq, hpne⟩
          · rcases hdisj q hq with ⟨hq1, hq2⟩
            exact ⟨hq1, fun hqq => hq2 (List.mem_of_mem_erase hqq)⟩
      · exact ⟨hnd, hidx, hdisj⟩

/-- The dedup invariant is preserved along any trace. -/
lemma inv_run (valid : Path → Bool) (C : Nat) (s : MonState Path)
    (tr : List (Ev Path)) (h : Inv s) : Inv (run valid C s tr) := by
  induction tr generalizing s with
  | nil => exact h
  | cons e tr ih =>
      rw [run_cons]
      exact ih _ (inv_step valid C s e h)

/-- The initial state satisfies the dedup invariant whenever the external
index has no duplicate entries. -/
lemma inv_mkInit (idx : List Path) (h : idx.Nodup) :
    Inv (mkInit idx : MonState Path) := by
  refine ⟨List.nodup_nil, h, ?_⟩
  intro p _
  exact ⟨List.not_mem_nil p, List.not_mem_nil p⟩

/-- Sum of the outcome counters touched by admission control. -/
def counterSum (s : MonState Path) : Nat :=
  s.admitted + s.dropped + s.skipped

/-- Each fresh, valid creation event adds one to
`admitted + dropped + skipped + (pending debounces)`; every other event
leaves that quantity unchanged.  Summed over a trace of distinct fresh
valid creations this gives the bookkeeping identity of the monitor. -/
lemma counterSum_run (valid : Path → Bool) (C : Nat) :
    ∀ (tr : List (Ev Path)) (s : MonState Path),
      (∀ p ∈ createPaths tr, valid p = true) →
      (createPaths tr).Nodup →
      (∀ p ∈ createPaths tr, p ∉ s.trackedPaths) →
      counterSum (run valid C s tr) +
          (run valid C s tr).debouncing.length
        = counterSum s + s.debouncing.length + (createPaths tr).length := by
  intro tr
  induction tr with
  | nil => intro s _ _ _; rfl
  | cons e tr ih =>
      intro s hval hnd hfresh
      rw [run_cons]
      cases e with
      | create p =>
          have hvp : valid p = true := hval p (by simp [createPaths])
          have hfp : p ∉ s.trackedPaths :=
            hfresh p (by simp [createPaths])
          have hndtail : (createPaths tr).Nodup := by
            simp only [createPaths, List.nodup_cons] at hnd
            exact hnd.2
          have hptail : p ∉ createPaths tr := by
            simp only [createPaths, List.nodup_cons] at hnd
            exact hnd.1
          have hvaltail : ∀ q ∈ createPaths tr, valid q = true := by
            intro q hq
            exact hval q (by simp [createPaths, hq])
          have hstep : step valid C s (Ev.create p)
              = (if C ≤ s.trackedCount then { s with dropped := s.dropped + 1 }
                 else { s with debouncing := p :: s.debouncing }) := by
            simp only [step, hvp, Bool.true_eq_false, if_false, if_neg hfp]
          by_cases hfull : C ≤ s.trackedCount
          · rw [hstep, if_pos hfull]
            have IH := ih { s with dropped := s.dropped + 1 }
              hvaltail hndtail (fun q hq => hfresh q (by simp [createPaths, hq]))
            rw [IH]
            simp only [counterSum, createPaths, List.length_cons]
            omega
          · rw [hstep, if_neg hfull]
            have IH := ih { s with debouncing := p :: s.debouncing }
              hvaltail hndtail ?_
            · rw [IH]
              simp only [counterSum, createPaths, List.length_cons]
              omega
            · intro q hq
              have h1 : q ∉ s.trackedPaths :=
                hfresh q (by simp [createPaths, hq])
              have h2 : q ≠ p := fun heq => hptail (heq ▸ hq)
              simp only [MonState.trackedPaths, List.mem_append,
                List.mem_cons] at h1 ⊢
              tauto
      | stable p =>
          have hsub := trackedPaths_step_subset valid C s (Ev.stable p)
          simp only [createPaths, List.nil_append] at hsub
          have hctail : createPaths (Ev.stable p :: tr) = createPaths tr := by
            simp [createPaths]
          rw [hctail] at hval hnd hfresh ⊢
          have IH := ih (step valid C s (Ev.stable p)) hval hnd
            (fun q hq hmem => hfresh q hq (hsub hmem))
          rw [IH]
          have heq : counterSum (step valid C s (Ev.stable p)) +
              (step valid C s (Ev.stable p)).debouncing.length
                = counterSum s + s.debouncing.length := by
            simp only [step]
            split
            · rename_i hp
              have h1 := List.length_erase_of_mem hp
              have h2 := List.length_pos_of_mem hp
              split
              · simp only [counterSum]
                omega
              · simp only [counterSum]
                omega
            · rfl
          omega
      | pickup p =>
          have hsub := trackedPaths_step_subset valid C s (Ev.pickup p)
          simp only [createPaths, List.nil_append] at hsub
          have hctail : createPaths (Ev.pickup p :: tr) = createPaths tr := by
            simp [createPaths]
          rw [hctail] at hval hnd hfresh ⊢
          have IH := ih (step valid C s (Ev.pickup p)) hval hnd
            (fun q hq hmem => hfresh q hq (hsub hmem))
          rw [IH]
          have heq : counterSum (step valid C s (Ev.pickup p)) +
              (step valid C s (Ev.pickup p)).debouncing.length
                = counterSum s + s.debouncing.length := by
            simp only [step]
            split
            · rfl
            · rfl
          omega
      | complete p =>
          have hsub := trackedPaths_step_subset valid C s (Ev.complete p)
          simp only [createPaths, List.nil_append] at hsub
          have hctail : createPaths (Ev.complete p :: tr) = createPaths tr := by
            simp [createPaths]
          rw [hctail] at hval hnd hfresh ⊢
          have IH := ih (step valid C s (Ev.complete p)) hval hnd
            (fun q hq hmem => hfresh q hq (hsub hmem))
          rw [IH]
          have heq : counterSum (step valid C s (Ev.complete p)) +
              (step valid C s (Ev.complete p)).debouncing.length
                = counterSum s + s.debouncing.length := by
            simp only [step]
            split
            · rfl
            · rfl
          omega

lemma run_append (valid : Path → Bool) (C : Nat) (s : MonState Path)
    (t₁ t₂ : List (Ev Path)) :
    run valid C s (t₁ ++ t₂) = run valid C (run valid C s t₁) t₂ := by
  unfold run
  exact List.foldl_append _ _ _ _

/-- A burst of distinct fresh valid creation events, delivered to a state
with an idle queue and idle workers, fills the debouncer up to the
remaining capacity and drops the rest. -/
lemma run_creates (valid : Path → Bool) (C : Nat) (ps : List Path) :
    ∀ (deb : List Path) (dr : Nat),
      (∀ p ∈ ps, valid p = true) → ps.Nodup →
      (∀ p ∈ ps, p ∉ deb) →
      run valid C (⟨deb, [], [], [], 0, dr, 0, 0⟩ : MonState Path)
          (ps.map Ev.create)
        = ⟨(ps.take (C - deb.length)).reverse ++ deb, [], [], [], 0,
           dr + (ps.length - (C - deb.length)), 0, 0⟩ := by
  induction ps with
  | nil =>
      intro deb dr _ _ _
      simp [run]
  | cons p ps ih =>
      intro deb dr hval hnd hfresh
      have hvp : valid p = true := hval p (by simp)
      have hfp : p ∉ deb := hfresh p (by simp)
      have hndtail : ps.Nodup := hnd.of_cons
      have hptail : p ∉ ps := (List.nodup_cons.mp hnd).1
      have hvaltail : ∀ q ∈ ps, valid q = true :=
        fun q hq => hval q (List.mem_cons_of_mem _ hq)
      simp only [List.map_cons]
      rw [run_cons]
      have hfp' : p ∉ MonState.trackedPaths
          (⟨deb, [], [], [], 0, dr, 0, 0⟩ : MonState Path) := by
        simpa [MonState.trackedPaths] using hfp
      have htc : MonState.trackedCount
          (⟨deb, [], [], [], 0, dr, 0, 0⟩ : MonState Path) = deb.length := by
        simp [MonState.trackedCount]
      by_cases hfull : C ≤ deb.length
      · have hstep : step valid C
            (⟨deb, [], [], [], 0, dr, 0, 0⟩ : MonState Path) (Ev.create p)
              = ⟨deb, [], [], [], 0, dr + 1, 0, 0⟩ := by
          simp only [step, hvp, Bool.true_eq_false, if_false, if_neg hfp',
            htc, if_pos hfull]
        rw [hstep, ih deb (dr + 1) hvaltail hndtail
          (fun q hq => hfresh q (List.mem_cons_of_mem _ hq))]
        have h0 : C - deb.length = 0 := Nat.sub_eq_zero_of_le hfull
        simp [h0, MonState.mk.injEq]
        omega
      · have hstep : step valid C
            (⟨deb, [], [], [], 0, dr, 0, 0⟩ : MonState Path) (Ev.create p)
              = ⟨p :: deb, [], [], [], 0, dr, 0, 0⟩ := by
          simp only [step, hvp, Bool.true_eq_false, if_false, if_neg hfp',
            htc, if_neg hfull]
        have hfreshtail : ∀ q ∈ ps, q ∉ p :: deb := by
          intro q hq
          simp only [List.mem_cons]
          rintro (rfl | hmem)
          · exact hptail hq
          · exact hfresh q (List.mem_cons_of_mem _ hq) hmem
        rw [hstep, ih (p :: deb) dr hvaltail hndtail hfreshtail]
        obtain ⟨m, hm⟩ : ∃ m, C - deb.length = m + 1 :=
          ⟨C - deb.length - 1, by omega⟩
        have hm2 : C - (p :: deb).length = m := by
          simp only [List.length_cons]
          omega
        rw [hm2, hm, List.take_succ_cons]
        simp [MonState.mk.injEq, List.append_assoc]

/-- When the debounce timers of exactly the pending paths fire in order,
with no worker activity and an empty external index, every pending path
is admitted to the queue. -/
lemma run_stables (valid : Path → Bool) (C : Nat) (ds : List Path) :
    ∀ (q : List Path) (a dr : Nat),
      run valid C (⟨ds, q, [], [], a, dr, 0, 0⟩ : MonState Path)
          (ds.map Ev.stable)
        = ⟨[], ds.reverse ++ q, [], [], a + ds.length, dr, 0, 0⟩ := by
  induction ds with
  | nil =>
      intro q a dr
      simp [run]
  | cons p ds ih =>
      intro q a dr
      simp only [List.map_cons]
      rw [run_cons]
      have hstep : step valid C
          (⟨p :: ds, q, [], [], a, dr, 0, 0⟩ : MonState Path) (Ev.stable p)
            = ⟨ds, p :: q, [], [], a + 1, dr, 0, 0⟩ := by
        simp only [step, List.mem_cons, true_or, if_true,
          List.not_mem_nil, if_false, List.erase_cons_head]
      rw [hstep, ih (p :: q) (a + 1) dr]
      simp [MonState.mk.injEq, List.append_assoc]
      omega

/-- Reachability of a monitor state from the initial state. -/
def ReachableFrom (valid : Path → Bool) (C : Nat) (idx : List Path)
    (s : MonState Path) : Prop :=
  ∃ tr, s = run valid C (mkInit idx) tr

/-- The burst scenario of the documentation: 150 valid files created
faster than they can be processed, against capacity 100.  The 100
admitted files debounce and go stable; the 50 dropped ones never get a
timer. -/
def burstCreates : List (Ev Nat) := (List.range 150).map Ev.create

def burstStables : List (Ev Nat) := ((List.range 100).reverse).map Ev.stable

def burstTrace : List (Ev Nat) := burstCreates ++ burstStables

/-- Scenario refuting depth-accounting that ignores in-progress tasks:
one file is created, goes stable and is picked up by a worker; then a
second file arrives while the queue itself is empty. -/
def inProgressTrace : List (Ev Nat) :=
  [Ev.create 0, Ev.stable 0, Ev.pickup 0, Ev.create 1]

/-! ### Claim theorems for the bounded queue and dedup tracker -/

/-- C1: the bounded queue never tracks more than its configured capacity
`C` (default `MAX_QUEUE_SIZE = 100`); an admission attempt at capacity is
rejected by returning the state unchanged except for the incremented
dropped-overflow counter — nothing is evicted and nothing blocks. -/
theorem bounded_queue_never_exceeds_capacity :
    (∀ (P : Type) [DecidableEq P] (valid : P → Bool) (C : Nat)
        (idx : List P) (tr : List (Ev P)),
        (run valid C (mkInit idx) tr).trackedCount ≤ C)
    ∧ (∀ (P : Type) [DecidableEq P] (valid : P → Bool) (C : Nat)
        (s : MonState P) (p : P),
        valid p = true → p ∉ s.trackedPaths → s.trackedCount = C →
        step valid C s (Ev.create p) = { s with dropped := s.dropped + 1 })
    ∧ defaultMaxQueueSize = 100 := by
  refine ⟨?_, ?_, rfl⟩
  · intro P _ valid C idx tr
    exact trackedCount_run_le valid C _ tr (Nat.zero_le C)
  · intro P _ valid C s p hv hfp hC
    simp only [step, hv, Bool.true_eq_false, if_false, if_neg hfp,
      if_pos (le_of_eq hC.symm)]

/-- Witness for C1: with capacity 1 and one task already in progress, a
fresh creation is rejected and only the dropped counter changes. -/
theorem bounded_queue_never_exceeds_capacity_witness :
    step (fun _ => true) 1 (⟨[], [], [7], [], 0, 0, 0, 0⟩ : MonState Nat)
        (Ev.create 3)
      = ⟨[], [], [7], [], 0, 1, 0, 0⟩ :=
  bounded_queue_never_exceeds_capacity.2.1 Nat (fun _ => true) 1
    (⟨[], [], [7], [], 0, 0, 0, 0⟩ : MonState Nat) 3 rfl (by decide) rfl

set_option maxRecDepth 40000 in
/-- C2: along any event trace the number of tasks being processed never
exceeds the capacity `C`; for distinct valid created files, once every
debounce has resolved, `admitted + dropped + skipped` equals the number
of creation events; and in the documented burst of 150 valid files
against capacity 100, exactly 100 are admitted, 50 are dropped and the
dropped counter reads 50. -/
theorem admission_control_counters :
    (∀ (P : Type) [DecidableEq P] (valid : P → Bool) (C : Nat)
        (idx : List P) (tr : List (Ev P)) (n : Nat),
        (run valid C (mkInit idx) (tr.take n)).processing.length ≤ C)
    ∧ (∀ (P : Type) [DecidableEq P] (valid : P → Bool) (C : Nat)
        (idx : List P) (tr : List (Ev P)),
        (∀ p ∈ createPaths tr, valid p = true) →
        (createPaths tr).Nodup →
        (run valid C (mkInit idx) tr).debouncing = [] →
        (run valid C (mkInit idx) tr).admitted
            + (run valid C (mkInit idx) tr).dropped
            + (run valid C (mkInit idx) tr).skipped
          = (createPaths tr).length)
    ∧ ((run (fun _ => true) 100 (mkInit []) burstTrace).admitted = 100
        ∧ (run (fun _ => true) 100 (mkInit []) burstTrace).dropped = 50
        ∧ (run (fun _ => true) 100 (mkInit []) burstTrace).skipped = 0) := by
  refine ⟨?_, ?_, ?_⟩
  · intro P _ valid C idx tr n
    have h := trackedCount_run_le valid C (mkInit idx) (tr.take n)
      (Nat.zero_le C)
    simp only [MonState.trackedCount] at h
    omega
  · intro P _ valid C idx tr hval hnd hdone
    have h := counterSum_run valid C tr (mkInit idx) hval hnd
      (fun p _ hmem => List.not_mem_nil p hmem)
    have hz : counterSum (mkInit idx : MonState P) = 0 := rfl
    have hz2 : (mkInit idx : MonState P).debouncing.length = 0 := rfl
    rw [hz, hz2] at h
    simp only [counterSum, hdone, List.length_nil] at h
    omega
  · have h1 : run (fun _ => true) 100 (mkInit ([] : List Nat)) burstCreates
        = ⟨(List.range 100).reverse, [], [], [], 0, 50, 0, 0⟩ := by
      have h := run_creates (fun _ => true) 100 (List.range 150) [] 0
        (fun p _ => rfl) (List.nodup_range 150)
        (fun p _ hmem => List.not_mem_nil p hmem)
      simp only [List.length_nil, Nat.sub_zero, List.take_range,
        List.length_range, List.append_nil] at h
      norm_num at h
      exact h
    have h2 := run_stables (fun _ => true) 100 ((List.range 100).reverse)
      [] 0 50
    rw [burstTrace, run_append, h1]
    simp only [burstStables]
    rw [h2]
    simp

/-- Witness for C2: two events, one valid distinct creation which settles;
the counters sum to the single creation event. -/
theorem admission_control_counters_witness :
    (run (fun _ => true) 2 (mkInit ([] : List Nat))
          [Ev.create 0, Ev.stable 0]).admitted
        + (run (fun _ => true) 2 (mkInit ([] : List Nat))
          [Ev.create 0, Ev.stable 0]).dropped
        + (run (fun _ => true) 2 (mkInit ([] : List Nat))
          [Ev.create 0, Ev.stable 0]).skipped
      = (createPaths [Ev.create (0 : Nat), Ev.stable 0]).length :=
  admission_control_counters.2.1 Nat (fun _ => true) 2 []
    [Ev.create 0, Ev.stable 0] (by decide) (by decide) (by decide)

/-- C3 counterexample: with capacity 1, after one file has been created,
gone stable and been picked up by a worker, the queue and the debouncer
are both empty; yet a second fresh valid creation is dropped (dropped
counter 1, the new path not tracked anywhere).  So the at-capacity
rejection test does count the task already assigned to a worker,
refuting the claim that depth reflects only items not yet picked up. -/
theorem depth_ignores_in_progress_counterexample :
    (run (fun _ => true) 1 (mkInit []) inProgressTrace).dropped = 1
    ∧ (run (fun _ => true) 1 (mkInit []) inProgressTrace).debouncing = []
    ∧ (run (fun _ => true) 1 (mkInit []) inProgressTrace).queued = []
    ∧ (run (fun _ => true) 1 (mkInit []) inProgressTrace).processing = [0] := by
  set_option maxRecDepth 40000 in decide

/-- C3 (amended): the at-capacity rejection test counts every tracked
file — debouncing, queued, and already assigned to a worker; a task
contributes to the depth until it completes. -/
theorem depth_counts_all_tracked :
    ∀ (P : Type) [DecidableEq P] (valid : P → Bool) (C : Nat)
      (s : MonState P) (p : P),
      valid p = true → p ∉ s.trackedPaths →
      step valid C s (Ev.create p)
        = if C ≤ s.debouncing.length + s.queued.length + s.processing.length
          then { s with dropped := s.dropped + 1 }
          else { s with debouncing := p :: s.debouncing } := by
  intro P _ valid C s p hv hfp
  simp only [step, hv, Bool.true_eq_false, if_false, if_neg hfp]
  rfl

/-- Witness for the amended C3: a worker-held task alone fills capacity 1,
so a fresh creation is dropped. -/
theorem depth_counts_all_tracked_witness :
    step (fun _ => true) 1 (⟨[], [], [5], [], 0, 0, 0, 0⟩ : MonState Nat)
        (Ev.create 6)
      = ⟨[], [], [5], [], 0, 1, 0, 0⟩ := by
  have h := depth_counts_all_tracked Nat (fun _ => true) 1
    (⟨[], [], [5], [], 0, 0, 0, 0⟩ : MonState Nat) 6 rfl (by decide)
  simpa using h

/-- C5: in every reachable state (over an index without duplicates) at
most one task per path is in flight, a stable signal for a path owned by
the queue or a worker is a no-op, a stable signal for a path already in
the external index marks it skipped without enqueueing, and the index
never receives a second entry for the same path. -/
theorem dedup_single_task_per_path :
    ∀ (P : Type) [DecidableEq P] (valid : P → Bool) (C : Nat)
      (idx : List P) (s : MonState P),
      idx.Nodup → ReachableFrom valid C idx s →
      s.trackedPaths.Nodup
      ∧ (∀ p, (p ∈ s.queued ∨ p ∈ s.processing) →
          step valid C s (Ev.stable p) = s)
      ∧ (∀ p, p ∈ s.debouncing → p ∈ s.indexed →
          step valid C s (Ev.stable p)
            = { s with debouncing := s.debouncing.erase p,
                       skipped := s.skipped + 1 })
      ∧ s.indexed.Nodup := by
  intro P _ valid C idx s hidx hreach
  obtain ⟨tr, rfl⟩ := hreach
  obtain ⟨hnd, hind, hdisj⟩ :=
    inv_run valid C _ tr (inv_mkInit idx hidx)
  refine ⟨hnd, ?_, ?_, hind⟩
  · intro p hp
    have h1 := List.nodup_append.mp hnd
    have h2 := List.nodup_append.mp h1.1
    have hnotdeb : p ∉ (run valid C (mkInit idx) tr).debouncing := by
      rcases hp with hq | hr
      · exact fun hd => h2.2.2 hd hq
      · exact fun hd => h1.2.2 (List.mem_append_left _ hd) hr
    simp only [step, if_neg hnotdeb]
  · intro p hdeb hind2
    simp only [step, if_pos hdeb, if_pos hind2]

/-- Witness for C5: the state reached by creating and settling one file
against a pre-indexed entry 9 satisfies the single-flight invariant. -/
theorem dedup_single_task_per_path_witness :
    (run (fun _ => true) 2 (mkInit ([9] : List Nat))
        [Ev.create 0, Ev.stable 0]).trackedPaths.Nodup :=
  (dedup_single_task_per_path Nat (fun _ => true) 2 [9]
    (run (fun _ => true) 2 (mkInit ([9] : List Nat))
      [Ev.create 0, Ev.stable 0])
    (by decide) ⟨[Ev.create 0, Ev.stable 0], rfl⟩).1

/-! ### Debouncer

Modelled from the spec: the per-path settle timer of `ImageFileHandler`
is not in the source tree.  `onEvent(path)` arms or re-arms a timer of
duration `T` (the documented 1-second delay); when it fires with no
intervening re-arm, one stable signal is emitted.  `stableSignals T ws`
returns the firing times produced by write events at the (nondecreasing)
times `ws` for one path. -/

def stableSignals (T : Nat) : List Nat → List Nat
  | [] => []
  | [w] => [w + T]
  | w :: w2 :: ws =>
      if w2 < w + T then stableSignals T (w2 :: ws)
      else (w + T) :: stableSignals T (w2 :: ws)

/-! ### Pipeline Executor

Modelled from the spec: `process_image_file` is not in the source tree.
The executor runs seven steps in order — validate, normalize, caption,
derive filename, embed, write index entry, rename on disk — and stops at
the first failure.  `o` is the outcome oracle: `o st = true` when step
`st` would succeed. -/

inductive PStep where
  | validate
  | normalize
  | caption
  | deriveName
  | embed
  | writeIndex
  | rename
deriving DecidableEq, Repr, Fintype

def pipelineOrder : List PStep :=
  [PStep.validate, PStep.normalize, PStep.caption, PStep.deriveName,
   PStep.embed, PStep.writeIndex, PStep.rename]

structure PipelineRun where
  attempted : List PStep
  firstFailure : Option PStep
deriving DecidableEq, Repr

def runSteps (o : PStep → Bool) : List PStep → PipelineRun
  | [] => ⟨[], none⟩
  | st :: rest =>
      if o st then
        let r := runSteps o rest
        ⟨st :: r.attempted, r.firstFailure⟩
      else ⟨[st], some st⟩

def execPipeline (o : PStep → Bool) : PipelineRun :=
  runSteps o pipelineOrder

inductive TaskStatus where
  | completed
  | failed (reason : PStep)
deriving DecidableEq, Repr

def PipelineRun.status (r : PipelineRun) : TaskStatus :=
  match r.firstFailure with
  | none => TaskStatus.completed
  | some st => TaskStatus.failed st

/-- A step both ran and succeeded. -/
def stepSucceeded (o : PStep → Bool) (st : PStep) : Bool :=
  (execPipeline o).attempted.contains st && o st

/-- The index entry is written exactly when step 6 ran and succeeded. -/
def indexWritten (o : PStep → Bool) : Bool :=
  stepSucceeded o PStep.writeIndex

/-- The original file is renamed exactly when step 7 ran and succeeded;
otherwise the original file is untouched on disk. -/
def renamedOnDisk (o : PStep → Bool) : Bool :=
  stepSucceeded o PStep.rename

/-! ### tRPC search procedure (routers/meme.ts) -/

structure SearchOutput where
  message : String
  results : List String
  query : Option String
deriving Repr, DecidableEq

/-- Embeds `memeRouter.search`: the query resolver returns a constant
message, an empty result list, and echoes `input.query`. -/
def searchQuery (input : Option String) : SearchOutput :=
  { message := "Search is unimplemented in this iteration"
  , results := []
  , query := input }

/-! ### HTTP upload handler (server index.ts) -/

/-- An uploaded file buffer (multer memory storage). -/
abbrev Buffer := List Nat

/-- Options passed to sharp's `toFormat` call. -/
structure SharpOpts where
  format : String
  quality : Nat
deriving Repr, DecidableEq

inductive RespBody where
  | errJson (error : String)
  | uploadOk (success : Bool) (filename : String)
deriving Repr, DecidableEq

structure HttpResponse where
  status : Nat
  body : RespBody
deriving Repr, DecidableEq

/-- The resolved data directory (path.resolve(__dirname, '../../data')). -/
def DATA_DIR : String := "data"

/-- Embeds the `POST /api/meme/upload` handler.  `uuid` is the value
produced by `uuidv4()`; `sharpToFile buf opts out` models
`sharp(buf).toFormat('jpeg', { quality: 80 }).toFile(out)` and may fail.
Returns the HTTP response and the list of paths written to disk. -/
def uploadHandler (uuid : String)
    (sharpToFile : Buffer → SharpOpts → String → Except String Unit)
    (file : Option Buffer) : HttpResponse × List String :=
  match file with
  | none => (⟨400, RespBody.errJson "No file uploaded"⟩, [])
  | some buf =>
      let filename := uuid ++ ".jpg"
      let outputPath := DATA_DIR ++ "/" ++ filename
      match sharpToFile buf ⟨"jpeg", 80⟩ outputPath with
      | Except.ok _ => (⟨200, RespBody.uploadOk true filename⟩, [outputPath])
      | Except.error _ =>
          (⟨500, RespBody.errJson "Internal server error"⟩, [])

/-! ### ImageService.generateCaption (imageService.ts) -/

/-- Embeds `ImageService.generateCaption(imagePath)`.  The whole body is
wrapped in try/catch; the catch block only calls `console.error` and
does not rethrow, and the method returns `Promise<void>`.  `initModel`
models the lazy `initialize()` await, `readImage` models
`RawImage.read(imagePath)`, and `captionCall` models
`processor.caption(image, "short", ...)`; each may fail. -/
def generateCaption (initModel : Except String Unit)
    (readImage : Except String String)
    (captionCall : String → Except String String) : Except String Unit :=
  let tryBody : Except String Unit :=
    (initModel.bind (fun _ => readImage)).bind
      (fun img => (captionCall img).map (fun _ => ()))
  match tryBody with
  | Except.ok _ => Except.ok ()
  | Except.error _ => Except.ok ()

/-! ### Worker pool and graceful shutdown

Modelled from the spec: the worker-dispatch and shutdown code is not in
the source tree.  A pool has queued tasks, running tasks (each with the
number `rem` of remaining work ticks and a success flag `ok`), a record
of terminal outcomes, and the ids whose index writes became visible.  A
tick finishes the running tasks that are out of work (their index write
becomes visible only on success), advances the rest, and — only while
not stopped — refills the free workers from the queue.  `stopDrain`
models `stop(drainTimeout)`: set the stopped flag (no further dequeues),
let in-flight tasks finish for `timeout` ticks, then abandon, without
terminating, whatever still runs. -/

structure WTask where
  id : Nat
  rem : Nat
  ok : Bool
deriving DecidableEq, Repr

structure Pool where
  queue : List WTask
  running : List WTask
  done : List (Nat × Bool)
  indexed : List Nat
  stopped : Bool
deriving DecidableEq, Repr

def tick (W : Nat) (s : Pool) : Pool :=
  let fin := s.running.filter (fun t => t.rem = 0)
  let still := (s.running.filter (fun t => ¬ t.rem = 0)).map
    (fun t => { t with rem := t.rem - 1 })
  let base : Pool :=
    { s with
      running := still,
      done := s.done ++ fin.map (fun t => (t.id, t.ok)),
      indexed := s.indexed
        ++ (fin.filter (fun t => t.ok)).map (fun t => t.id) }
  if s.stopped then base
  else
    let k := W - base.running.length
    { base with running := base.running ++ base.queue.take k,
                queue := base.queue.drop k }

def ticks (W : Nat) : Nat → Pool → Pool
  | 0, s => s
  | n + 1, s => ticks W n (tick W s)

/-- `stop(drainTimeout)`: final pool and the ids of abandoned tasks. -/
def stopDrain (W timeout : Nat) (s : Pool) : Pool × List Nat :=
  let s1 := ticks W timeout { s with stopped := true }
  ({ s1 with running := [] }, s1.running.map (fun t => t.id))

/-- Sanity conditions on a pool: running ids are distinct and not yet
recorded as done or indexed. -/
def PoolWF (s : Pool) : Prop :=
  (s.running.map (fun t => t.id)).Nodup
  ∧ (∀ t ∈ s.running, (∀ x ∈ s.done, x.1 ≠ t.id) ∧ t.id ∉ s.indexed)

lemma tick_stopped_queue (W : Nat) (s : Pool) (h : s.stopped = true) :
    (tick W s).queue = s.queue ∧ (tick W s).stopped = true := by
  simp [tick, h]

lemma ticks_stopped_queue (W : Nat) :
    ∀ (n : Nat) (s : Pool), s.stopped = true →
      (ticks W n s).queue = s.queue ∧ (ticks W n s).stopped = true := by
  intro n
  induction n with
  | zero => exact fun s h => ⟨rfl, h⟩
  | succ n ih =>
      intro s h
      have h1 := tick_stopped_queue W s h
      have h2 := ih (tick W s) h1.2
      exact ⟨h2.1.trans h1.1, h2.2⟩

lemma mem_done_tick (W : Nat) (s : Pool) (x : Nat × Bool) :
    x ∈ (tick W s).done ↔
      x ∈ s.done ∨ ∃ t, t ∈ s.running ∧ t.rem = 0 ∧ x = (t.id, t.ok) := by
  cases hst : s.stopped <;>
    (simp [tick, hst, List.mem_append, List.mem_map, List.mem_filter,
      and_assoc]
     aesop)

lemma mem_indexed_tick (W : Nat) (s : Pool) (y : Nat) :
    y ∈ (tick W s).indexed ↔
      y ∈ s.indexed
      ∨ ∃ t, t ∈ s.running ∧ t.rem = 0 ∧ t.ok = true ∧ y = t.id := by
  cases hst : s.stopped <;>
    (simp [tick, hst, List.mem_append, List.mem_map, List.mem_filter,
      and_assoc]
     aesop)

lemma mem_running_tick_stopped (W : Nat) (s : Pool) (u : WTask)
    (h : s.stopped = true) :
    u ∈ (tick W s).running ↔
      ∃ t, t ∈ s.running ∧ ¬ t.rem = 0
        ∧ u = (⟨t.id, t.rem - 1, t.ok⟩ : WTask) := by
  simp [tick, h, List.mem_map, List.mem_filter, and_assoc]
  aesop

lemma ticks_done_mono (W : Nat) :
    ∀ (n : Nat) (s : Pool) (x : Nat × Bool),
      x ∈ s.done → x ∈ (ticks W n s).done := by
  intro n
  induction n with
  | zero => exact fun s x hx => hx
  | succ n ih =>
      intro s x hx
      exact ih (tick W s) x ((mem_done_tick W s x).mpr (Or.inl hx))

/-- During a stopped drain, a running task with fewer remaining ticks
than the drain window reaches a terminal outcome. -/
lemma ticks_finishes (W : Nat) :
    ∀ (n : Nat) (s : Pool), s.stopped = true →
      ∀ t ∈ s.running, t.rem < n → (t.id, t.ok) ∈ (ticks W n s).done := by
  intro n
  induction n with
  | zero =>
      intro s _ t _ hrem
      omega
  | succ n ih =>
      intro s hst t ht hrem
      by_cases h0 : t.rem = 0
      · exact ticks_done_mono W n (tick W s) _
          ((mem_done_tick W s _).mpr (Or.inr ⟨t, ht, h0, rfl⟩))
      · have hmem : (⟨t.id, t.rem - 1, t.ok⟩ : WTask) ∈ (tick W s).running :=
          (mem_running_tick_stopped W s _ hst).mpr ⟨t, ht, h0, rfl⟩
        have h2 := ih (tick W s) (tick_stopped_queue W s hst).2
          (⟨t.id, t.rem - 1, t.ok⟩ : WTask) hmem (by simp; omega)
        simpa using h2

/-- During a stopped drain, a running task with at least the drain window
remaining is still running afterwards, its partial work intact. -/
lemma ticks_abandons (W : Nat) :
    ∀ (n : Nat) (s : Pool), s.stopped = true →
      ∀ t ∈ s.running, n ≤ t.rem →
        (⟨t.id, t.rem - n, t.ok⟩ : WTask) ∈ (ticks W n s).running := by
  intro n
  induction n with
  | zero =>
      intro s _ t ht _
      simpa using ht
  | succ n ih =>
      intro s hst t ht hrem
      have h0 : ¬ t.rem = 0 := by omega
      have hmem : (⟨t.id, t.rem - 1, t.ok⟩ : WTask) ∈ (tick W s).running :=
        (mem_running_tick_stopped W s _ hst).mpr ⟨t, ht, h0, rfl⟩
      have h2 := ih (tick W s) (tick_stopped_queue W s hst).2
        (⟨t.id, t.rem - 1, t.ok⟩ : WTask) hmem (by simp; omega)
      have harith : t.rem - 1 - n = t.rem - (n + 1) := by omega
      simpa [harith] using h2

/-- During a stopped drain, every visible index write either predates
the stop or belongs to a running task that finished successfully inside
the window. -/
lemma ticks_indexed_sub (W : Nat) :
    ∀ (n : Nat) (s : Pool), s.stopped = true →
      ∀ y ∈ (ticks W n s).indexed,
        y ∈ s.indexed
        ∨ ∃ t, t ∈ s.running ∧ t.rem < n ∧ t.ok = true ∧ y = t.id := by
  intro n
  induction n with
  | zero => exact fun s _ y hy => Or.inl hy
  | succ n ih =>
      intro s hst y hy
      rcases ih (tick W s) (tick_stopped_queue W s hst).2 y hy with h1 | h1
      · rcases (mem_indexed_tick W s y).mp h1 with h2 | ⟨t, ht, h0, hok, rfl⟩
        · exact Or.inl h2
        · exact Or.inr ⟨t, ht, by omega, hok, rfl⟩
      · obtain ⟨u, hu, hurem, huok, rfl⟩ := h1
        obtain ⟨t, ht, h0, rfl⟩ :=
          (mem_running_tick_stopped W s u hst).mp hu
        exact Or.inr ⟨t, ht, by simp at hurem; omega, huok, rfl⟩

/-- During a stopped drain, every terminal outcome either predates the
stop or belongs to a running task that ran out of work in the window. -/
lemma ticks_done_sub (W : Nat) :
    ∀ (n : Nat) (s : Pool), s.stopped = true →
      ∀ x ∈ (ticks W n s).done,
        x ∈ s.done
        ∨ ∃ t, t ∈ s.running ∧ t.rem < n ∧ x = (t.id, t.ok) := by
  intro n
  induction n with
  | zero => exact fun s _ x hx => Or.inl hx
  | succ n ih =>
      intro s hst x hx
      rcases ih (tick W s) (tick_stopped_queue W s hst).2 x hx with h1 | h1
      · rcases (mem_done_tick W s x).mp h1 with h2 | ⟨t, ht, h0, rfl⟩
        · exact Or.inl h2
        · exact Or.inr ⟨t, ht, by omega, rfl⟩
      · obtain ⟨u, hu, hurem, rfl⟩ := h1
        obtain ⟨t, ht, h0, rfl⟩ :=
          (mem_running_tick_stopped W s u hst).mp hu
        exact Or.inr ⟨t, ht, by simp at hurem; omega, rfl⟩

/-- A list mapping to distinct values has no two elements with the same
image. -/
lemma nodupMapEq {α β : Type} (f : α → β) :
    ∀ (l : List α), (l.map f).Nodup →
      ∀ a ∈ l, ∀ b ∈ l, f a = f b → a = b := by
  intro l
  induction l with
  | nil => intro _ a ha; exact absurd ha (List.not_mem_nil a)
  | cons c l ih =>
      intro hnd a ha b hb hf
      simp only [List.map_cons, List.nodup_cons, List.mem_map] at hnd
      rcases List.mem_cons.mp ha with h1 | h1
      · rcases List.mem_cons.mp hb with h2 | h2
        · rw [h1, h2]
        · subst h1
          exact absurd (⟨b, h2, hf.symm⟩ : ∃ x ∈ l, f x = f a) hnd.1
      · rcases List.mem_cons.mp hb with h2 | h2
        · subst h2
          exact absurd (⟨a, h1, hf⟩ : ∃ x ∈ l, f x = f b) hnd.1
        · exact ih hnd.2 a h1 b h2 hf

/-- C8: on `stop(drainTimeout)` the pool stops dequeuing immediately
(the queue is exactly as it was), every in-flight task whose remaining
work fits in the drain window reaches a terminal outcome before shutdown
returns, and a task still running at the timeout is abandoned: it is
reported abandoned, it is never given a terminal status (not interrupted
mid-operation), and no index write for it is made visible. -/
theorem worker_pool_graceful_stop :
    ∀ (W timeout : Nat) (s : Pool),
      PoolWF s →
      (stopDrain W timeout s).1.queue = s.queue
      ∧ (∀ t ∈ s.running, t.rem < timeout →
          (t.id, t.ok) ∈ (stopDrain W timeout s).1.done)
      ∧ (∀ t ∈ s.running, timeout ≤ t.rem →
          t.id ∈ (stopDrain W timeout s).2
          ∧ (∀ b, (t.id, b) ∉ (stopDrain W timeout s).1.done)
          ∧ t.id ∉ (stopDrain W timeout s).1.indexed) := by
  intro W timeout s hwf
  have hst : ({ s with stopped := true } : Pool).stopped = true := rfl
  refine ⟨?_, ?_, ?_⟩
  · exact (ticks_stopped_queue W timeout { s with stopped := true } hst).1
  · intro t ht hrem
    exact ticks_finishes W timeout { s with stopped := true } hst t ht hrem
  · intro t ht hrem
    refine ⟨?_, ?_, ?_⟩
    · have h := ticks_abandons W timeout { s with stopped := true }
        hst t ht hrem
      exact List.mem_map.mpr ⟨_, h, rfl⟩
    · intro b hb
      have h := ticks_done_sub W timeout { s with stopped := true }
        hst (t.id, b) hb
      rcases h with h | ⟨u, hu, hurem, hux⟩
      · exact (hwf.2 t ht).1 (t.id, b) h rfl
      · have hid : u.id = t.id := by
          have h2 := congrArg Prod.fst hux
          simpa using h2.symm
        have heq : u = t :=
          nodupMapEq (fun w => w.id) s.running hwf.1 u hu t ht hid
        subst heq
        omega
    · intro hy
      have h := ticks_indexed_sub W timeout { s with stopped := true }
        hst t.id hy
      rcases h with h | ⟨u, hu, hurem, huok, huy⟩
      · exact (hwf.2 t ht).2 h
      · have heq : u = t :=
          nodupMapEq (fun w => w.id) s.running hwf.1 u hu t ht huy.symm
        subst heq
        omega

/-- Witness for C8: stopping with drain window 2 while one worker is
about to finish and another still has 5 ticks of work: the quick task
reaches its terminal outcome before shutdown returns. -/
theorem worker_pool_graceful_stop_witness :
    ((1 : Nat), true) ∈
      (stopDrain 4 2
        (⟨[⟨3, 0, true⟩], [⟨1, 0, true⟩, ⟨2, 5, true⟩], [], [],
          false⟩ : Pool)).1.done :=
  (worker_pool_graceful_stop 4 2
      (⟨[⟨3, 0, true⟩], [⟨1, 0, true⟩, ⟨2, 5, true⟩], [], [],
        false⟩ : Pool)
      (by constructor
          · decide
          · intro t ht
            exact ⟨fun x hx => absurd hx (List.not_mem_nil x),
              List.not_mem_nil t.id⟩)).2.1
    (⟨1, 0, true⟩ : WTask) (by decide) (by decide)

/-! ### Claim theorems for the debouncer and pipeline executor -/

/-- Debouncer timers always fire at least once for a nonempty write
sequence. -/
lemma stableSignals_ne_nil (T : Nat) :
    ∀ (w : Nat) (ws : List Nat), stableSignals T (w :: ws) ≠ [] := by
  intro w ws
  induction ws generalizing w with
  | nil => simp [stableSignals]
  | cons w2 ws ih =>
      by_cases h : w2 < w + T
      · simpa [stableSignals, h] using ih w2
      · simp [stableSignals, h]

/-- For any write sequence, the final stable signal fires exactly one
full quiet interval after the last write. -/
lemma stableSignals_getLast (T : Nat) :
    ∀ (w : Nat) (ws : List Nat),
      (stableSignals T (w :: ws)).getLast?
        = some ((w :: ws).getLast (List.cons_ne_nil w ws) + T) := by
  intro w ws
  induction ws generalizing w with
  | nil => rfl
  | cons w2 ws ih =>
      have hlast : (w :: w2 :: ws).getLast (List.cons_ne_nil w (w2 :: ws))
          = (w2 :: ws).getLast (List.cons_ne_nil w2 ws) :=
        List.getLast_cons (List.cons_ne_nil w2 ws)
      by_cases h : w2 < w + T
      · have hunf : stableSignals T (w :: w2 :: ws)
            = stableSignals T (w2 :: ws) := by
          simp only [stableSignals, if_pos h]
        rw [hunf, hlast]
        exact ih w2
      · have hunf : stableSignals T (w :: w2 :: ws)
            = (w + T) :: stableSignals T (w2 :: ws) := by
          simp only [stableSignals, if_neg h]
        obtain ⟨y, ys, hys⟩ :=
          List.exists_cons_of_ne_nil (stableSignals_ne_nil T w2 ws)
        rw [hunf, hys, List.getLast?_cons_cons, ← hys, hlast]
        exact ih w2

/-- C4: for every finite write sequence to one path, the debouncer emits
a stable signal exactly one full quiet interval `T` after the last
write; and when every rewrite lands inside the running debounce
interval, that is the only signal: one stable signal, not one per
write. -/
theorem debounce_single_stable_signal :
    (∀ (T w : Nat) (ws : List Nat),
      (stableSignals T (w :: ws)).getLast?
        = some ((w :: ws).getLast (List.cons_ne_nil w ws) + T))
    ∧ (∀ (T w : Nat) (ws : List Nat),
        List.Chain' (fun a b => b < a + T) (w :: ws) →
        stableSignals T (w :: ws)
          = [(w :: ws).getLast (List.cons_ne_nil w ws) + T]
        ∧ (stableSignals T (w :: ws)).length = 1) := by
  constructor
  · exact stableSignals_getLast
  · intro T w ws
    induction ws generalizing w with
    | nil =>
        intro _
        exact ⟨rfl, rfl⟩
    | cons w2 ws ih =>
        intro h
        obtain ⟨h1, h2⟩ := List.chain'_cons.mp h
        have IH := ih w2 h2
        have hunf : stableSignals T (w :: w2 :: ws)
            = stableSignals T (w2 :: ws) := by
          simp only [stableSignals, if_pos h1]
        have hlast : (w :: w2 :: ws).getLast (List.cons_ne_nil w (w2 :: ws))
            = (w2 :: ws).getLast (List.cons_ne_nil w2 ws) :=
          List.getLast_cons (List.cons_ne_nil w2 ws)
        rw [hunf, hlast]
        exact IH

/-- Witness for C4: a file rewritten 5 times inside the default 1-second
interval produces exactly one stable signal, at the last write plus the
interval, not five signals. -/
theorem debounce_single_stable_signal_witness :
    stableSignals debounceDelayMs [0, 100, 200, 300, 400] = [1400]
    ∧ (stableSignals debounceDelayMs [0, 100, 200, 300, 400]).length = 1 := by
  have h := debounce_single_stable_signal.2 debounceDelayMs 0
    [100, 200, 300, 400]
    (by norm_num [List.chain'_cons, debounceDelayMs])
  exact ⟨by simpa using h.1, h.2⟩

set_option maxRecDepth 40000 in
/-- C6: the pipeline executor attempts its seven steps in strict order;
any failure aborts all remaining steps, marks the task failed and leaves
the file unrenamed; a rename only ever happens after a successful index
write; and a corrupt, non-decodable file fails at validation and is
never renamed or indexed. -/
theorem pipeline_order_failure_abort :
    (∀ (o : PStep → Bool) (st : PStep),
        (execPipeline o).firstFailure = some st →
        (execPipeline o).status = TaskStatus.failed st
        ∧ renamedOnDisk o = false
        ∧ (execPipeline o).attempted = pipelineOrder.takeWhile o ++ [st])
    ∧ (∀ o : PStep → Bool,
        renamedOnDisk o = true → indexWritten o = true)
    ∧ (∀ o : PStep → Bool,
        o PStep.validate = false →
        (execPipeline o).status = TaskStatus.failed PStep.validate
        ∧ renamedOnDisk o = false
        ∧ indexWritten o = false
        ∧ (execPipeline o).attempted = [PStep.validate]) := by
  decide

/-- Witness for C6: a failing embedder aborts the pipeline after the
first five steps; the task is failed and nothing is renamed. -/
theorem pipeline_order_failure_abort_witness :
    (execPipeline (fun st => decide (st ≠ PStep.embed))).status
        = TaskStatus.failed PStep.embed
    ∧ renamedOnDisk (fun st => decide (st ≠ PStep.embed)) = false
    ∧ (execPipeline (fun st => decide (st ≠ PStep.embed))).attempted
        = pipelineOrder.takeWhile (fun st => decide (st ≠ PStep.embed))
            ++ [PStep.embed] :=
  pipeline_order_failure_abort.1 (fun st => decide (st ≠ PStep.embed))
    PStep.embed (by decide)

/-- C7 (code bug): `ImageService.generateCaption` wraps the captioning
call in a try/catch whose catch block only logs, so a Captioner failure
resolves as success and can never propagate to the caller as a pipeline
step failure.  The concrete conjunct evaluates the failing input where
reading the image raises. -/
theorem generateCaption_swallows_failures :
    generateCaption (Except.ok ()) (Except.error ("read failed"))
        (fun i => Except.ok i)
      = Except.ok ()
    ∧ (∀ (initModel : Except String Unit)
        (readImage : Except String String)
        (captionCall : String → Except String String),
        generateCaption initModel readImage captionCall = Except.ok ()) := by
  refine ⟨rfl, ?_⟩
  intro initModel readImage captionCall
  cases initModel with
  | error e => rfl
  | ok u =>
      cases readImage with
      | error e => rfl
      | ok img =>
          cases hc : captionCall img with
          | error e => simp [generateCaption, Except.bind, Except.map, hc]
          | ok cap => simp [generateCaption, Except.bind, Except.map, hc]

/-- C9: the upload handler returns 400 with `No file uploaded` and
writes nothing when no file is attached; otherwise it converts the
buffer via sharp to JPEG at quality 80, writes a single file named by
the fresh UUID with extension `.jpg` in the data directory and returns
success with that filename; a sharp failure yields 500 and no write. -/
theorem upload_handler_contract :
    ∀ (uuid : String)
      (sharpToFile : Buffer → SharpOpts → String → Except String Unit)
      (file : Option Buffer),
      (file = none →
        uploadHandler uuid sharpToFile file
          = (⟨400, RespBody.errJson ("No file uploaded")⟩, []))
      ∧ (∀ buf, file = some buf →
          sharpToFile buf ⟨("jpeg"), 80⟩
              (DATA_DIR ++ "/" ++ (uuid ++ ".jpg")) = Except.ok () →
          uploadHandler uuid sharpToFile file
            = (⟨200, RespBody.uploadOk true (uuid ++ ".jpg")⟩,
               [DATA_DIR ++ "/" ++ (uuid ++ ".jpg")]))
      ∧ (∀ buf e, file = some buf →
          sharpToFile buf ⟨("jpeg"), 80⟩
              (DATA_DIR ++ "/" ++ (uuid ++ ".jpg")) = Except.error e →
          uploadHandler uuid sharpToFile file
            = (⟨500, RespBody.errJson ("Internal server error")⟩, [])) := by
  intro uuid sharpToFile file
  refine ⟨?_, ?_, ?_⟩
  · rintro rfl
    rfl
  · rintro buf rfl hok
    simp [uploadHandler, hok]
  · rintro buf e rfl herr
    simp [uploadHandler, herr]

/-- Witness for C9: a successful sharp conversion of an attached file
produces a 200 response with the UUID-based `.jpg` filename and exactly
one disk write. -/
theorem upload_handler_contract_witness :
    uploadHandler ("u") (fun _ _ _ => Except.ok ()) (some [])
      = (⟨200, RespBody.uploadOk true ("u" ++ ".jpg")⟩,
         [DATA_DIR ++ "/" ++ ("u" ++ ".jpg")]) :=
  (upload_handler_contract ("u") (fun _ _ _ => Except.ok ())
    (some [])).2.1 [] rfl rfl

/-- C10: for every input, the search procedure returns an empty result
list, the constant unimplemented message, and echoes the query back
unchanged; it is a total function consulting nothing else. -/
theorem search_stub_contract :
    ∀ q : Option String,
      (searchQuery q).results = []
      ∧ (searchQuery q).message = "Search is unimplemented in this iteration"
      ∧ (searchQuery q).query = q := by
  intro q
  exact ⟨rfl, rfl, rfl⟩

end MemeBrain
